import Mathlib

/-!
Verification of the PyCI `routines` module (determinant selection and solver
orchestration) against its design specification.  The Python source is
shallowly embedded: occupation vectors are `List Nat`, node costs and solver
scalars are `ℚ`, while loops are fuel-indexed structural recursions whose
second component records whether the loop reached its natural exit, and
fallible functions return `Except String`.
-/

namespace PyCI

/-- Value of the node-cost table at an orbital index (`nodes[i]` in the
source; indexing is only ever used in-bounds there, the default models
nothing reachable). -/
def nodeAt (nodes : List ℚ) (i : Nat) : ℚ :=
  nodes.getD i 0

/-- `np.max` over a nonempty vector of costs. -/
def listMax : List ℚ → ℚ
  | [] => 0
  | x :: xs => xs.foldl max x

/-- Cost of an occupation vector:
`np.sum(nodes[occs]) + t * np.max(nodes[occs])` from the source. -/
def qCost (nodes : List ℚ) (t : ℚ) (occs : List Nat) : ℚ :=
  (occs.map (nodeAt nodes)).sum + t * listMax (occs.map (nodeAt nodes))

/-- The rejection threshold computed once from an aufbau channel occupation:
`np.sum(nodes_s[:-1]) * p + (t + 1) * nodes[-1] * p` in the source, where
`nodes_s = nodes[aufbau occs]` and `nodes[-1]` is the last table entry. -/
def qNegThreshold (noccCh : Nat) (nodes : List ℚ) (t p : ℚ) : ℚ :=
  (((List.range noccCh).map (nodeAt nodes)).dropLast).sum * p +
    (t + 1) * nodes.getD (nodes.length - 1) 0 * p

/-- The advancement step of the odometer:
`new_occs[j] += 1` followed by `new_occs[k] = new_occs[j] + k - j` for
`k` in `(j, stop)`; positions outside `[j, stop)` are untouched. -/
def exciteFrom (occs : List Nat) (j stop : Nat) : List Nat :=
  (List.range occs.length).map fun k =>
    if k < j then occs.getD k 0
    else if k < stop then occs.getD j 0 + 1 + (k - j)
    else occs.getD k 0

/-- Positions `[a, b)` of an occupation vector carry strictly increasing
orbital indices (read through `getD`, which the loops use in range). -/
def StrictOn (l : List Nat) (a b : Nat) : Prop :=
  ∀ k, k < b → ∀ i, i < k → a ≤ i → l.getD i 0 < l.getD k 0

instance (l : List Nat) (a b : Nat) : Decidable (StrictOn l a b) :=
  inferInstanceAs
    (Decidable (∀ k, k < b → ∀ i, i < k → a ≤ i → l.getD i 0 < l.getD k 0))

/-- One-spin odometer loop (`while True:` block of `_odometer_one_spin`).
Returns every tested state paired with its acceptance verdict, and a flag
telling whether the loop reached its `break` before the fuel ran out. -/
def odoLoop (nbasis nocc : Nat) (nodes : List ℚ) (t qneg : ℚ) :
    Nat → List Nat → List Nat → ℤ → List (List Nat × Bool) × Bool
  | 0, _, _, _ => ([], false)
  | fuel + 1, newOccs, oldOccs, j =>
    let acc : Bool :=
      decide (newOccs.getD (nocc - 1) 0 < nbasis) &&
        decide (qCost nodes t newOccs < qneg)
    let s2 : List Nat × ℤ := if acc then (newOccs, (nocc : ℤ) - 1) else (oldOccs, j - 1)
    if s2.2 < 0 then ([(newOccs, acc)], true)
    else
      let rest := odoLoop nbasis nocc nodes t qneg fuel
        (exciteFrom s2.1 s2.2.toNat nocc) s2.1 s2.2
      ((newOccs, acc) :: rest.1, rest.2)

/-- `_odometer_one_spin`, exposing the full trace of tested states. -/
def odometer_one_spin_states (nbasis nocc : Nat) (nodes : List ℚ) (t p : ℚ)
    (fuel : Nat) : List (List Nat × Bool) × Bool :=
  let aufbau := List.range nocc
  odoLoop nbasis nocc nodes t (qNegThreshold nocc nodes t p) fuel
    aufbau aufbau ((nocc : ℤ) - 1)

/-- `_odometer_one_spin`: the determinants inserted into the wave function,
in insertion order, plus the completion flag. -/
def odometer_one_spin (nbasis nocc : Nat) (nodes : List ℚ) (t p : ℚ)
    (fuel : Nat) : List (List Nat) × Bool :=
  let r := odometer_one_spin_states nbasis nocc nodes t p fuel
  (r.1.filterMap (fun e => if e.2 then some e.1 else none), r.2)

/-- Two-spin odometer loop (`while True:` block of `_odometer_two_spin`).
States are flat vectors of length `nocc`; positions `< noccUp` are the
spin-up channel, the rest the spin-down channel. -/
def odoLoop2 (nbasis noccUp nocc : Nat) (nodes : List ℚ) (t qUpNeg qDnNeg : ℚ) :
    Nat → List Nat → List Nat → ℤ → List (List Nat × Bool) × Bool
  | 0, _, _, _ => ([], false)
  | fuel + 1, newOccs, oldOccs, j =>
    let acc : Bool :=
      decide (max (newOccs.getD (noccUp - 1) 0) (newOccs.getD (nocc - 1) 0) < nbasis) &&
        (decide (qCost nodes t (newOccs.take noccUp) < qUpNeg) &&
          decide (qCost nodes t (newOccs.drop noccUp) < qDnNeg))
    let s2 : List Nat × ℤ := if acc then (newOccs, (nocc : ℤ) - 1) else (oldOccs, j - 1)
    if s2.2 < 0 then ([(newOccs, acc)], true)
    else
      let stop := if s2.2.toNat < noccUp then noccUp else nocc
      let rest := odoLoop2 nbasis noccUp nocc nodes t qUpNeg qDnNeg fuel
        (exciteFrom s2.1 s2.2.toNat stop) s2.1 s2.2
      ((newOccs, acc) :: rest.1, rest.2)

/-- `_odometer_two_spin`, exposing the full trace of tested states. -/
def odometer_two_spin_states (nbasis noccUp noccDn : Nat) (nodes : List ℚ)
    (t p : ℚ) (fuel : Nat) : List (List Nat × Bool) × Bool :=
  let nocc := noccUp + noccDn
  let aufbau := List.range noccUp ++ List.range noccDn
  odoLoop2 nbasis noccUp nocc nodes t
    (qNegThreshold noccUp nodes t p) (qNegThreshold noccDn nodes t p) fuel
    aufbau aufbau ((nocc : ℤ) - 1)

/-- `_odometer_two_spin`: the determinants inserted into the wave function,
in insertion order (flat `up ++ dn` form), plus the completion flag. -/
def odometer_two_spin (nbasis noccUp noccDn : Nat) (nodes : List ℚ)
    (t p : ℚ) (fuel : Nat) : List (List Nat) × Bool :=
  let r := odometer_two_spin_states nbasis noccUp noccDn nodes t p fuel
  (r.1.filterMap (fun e => if e.2 then some e.1 else none), r.2)

/-- The `"cntsp"` node-construction loop of `add_gkci`:
`while len(nodes) < nbasis: nodes.extend([shell - 1.0] * shell ** 2)`.
The counter `k` is `shell - 1`, so one pass appends `(k + 1) ^ 2` copies of
the cost `k`. -/
def cntspLoop (nbasis : Nat) (k : Nat) (acc : List ℚ) : List ℚ :=
  if acc.length < nbasis then
    cntspLoop nbasis (k + 1) (acc ++ List.replicate ((k + 1) ^ 2) (k : ℚ))
  else acc
termination_by nbasis - acc.length
decreasing_by
  simp only [List.length_append, List.length_replicate]
  have : 0 < (k + 1) ^ 2 := Nat.pos_pow_of_pos 2 (Nat.succ_pos k)
  omega

/-- The node table `add_gkci` uses in mode `"cntsp"`: the shell loop
followed by the truncation `nodes[: wfn.nbasis]`. -/
def cntspNodes (nbasis : Nat) : List ℚ :=
  (cntspLoop nbasis 0 []).take nbasis

/-- The first `m` shells laid out in increasing order: shell `k = j + 1`
(for `j < m`) contributes `k ^ 2` consecutive entries of cost `k - 1`. -/
def cntspShells (m : Nat) : List ℚ :=
  (List.range m).flatMap fun j => List.replicate ((j + 1) ^ 2) (j : ℚ)

/-- Spec-side layout of the `"cntsp"` table: shell `k ≥ 1` contributes
`k ^ 2` consecutive entries of cost `k - 1`, shells in increasing order of
`k`, truncated to `nbasis` entries (`nbasis` shells always suffice). -/
def cntspSpecNodes (nbasis : Nat) : List ℚ :=
  (cntspShells nbasis).take nbasis

/-- Node-pattern argument of `add_gkci`: one of the three named string
modes, or a caller-supplied explicit cost sequence. -/
inductive NodeMode where
  | cntsp : NodeMode
  | gamma : NodeMode
  | cubic : NodeMode
  | explicitList : List ℚ → NodeMode
deriving DecidableEq

/-- Wave-function capability tag used by `add_gkci`'s dispatch:
`doci`/`genci` wave functions run the one-spin odometer, `fullci` the
two-spin odometer. -/
inductive WfnKind where
  | oneSpin : WfnKind
  | twoSpin : WfnKind
deriving DecidableEq

/-- `add_gkci`: argument checking, node-table construction (with the
`nodes[: wfn.nbasis]` truncation) and dispatch to the odometer for the
wave function's kind.  Returns the inserted determinants plus the loop's
completion flag, or the raised error's message. -/
def add_gkci (kind : WfnKind) (nbasis noccUp noccDn : Nat) (t p : ℚ)
    (mode : NodeMode) (node_dim : Option Nat) (fuel : Nat) :
    Except String (List (List Nat) × Bool) := do
  let rawNodes ← match mode with
    | .cntsp =>
      if node_dim.isSome then
        Except.error "node_dim must not be specified with mode cntsp"
      else
        Except.ok (cntspLoop nbasis 0 [])
    | .gamma =>
      if node_dim.isNone then
        Except.error "node_dim must be specified with mode 'gamma'"
      else
        Except.error "NotImplementedError"
    | .cubic =>
      if node_dim.isSome then
        Except.error "node_dim must not be specified with mode cubic"
      else
        Except.error "NotImplementedError"
    | .explicitList l => Except.ok l
  let nodes := rawNodes.take nbasis
  match kind with
  | .oneSpin => Except.ok (odometer_one_spin nbasis noccUp nodes t p fuel)
  | .twoSpin => Except.ok (odometer_two_spin nbasis noccUp noccDn nodes t p fuel)

/-- Modelled from the spec: the sequence `occ_up_array` that
`add_seniorities` obtains from the external collaborator calls
`pyci.doci_wfn(nbasis, nocc_up)`, `add_all_dets()` and `to_occ_array()` —
every spin-up occupation pattern of size `nocc_up` drawn from `nbasis`
orbitals.  Patterns are the length-`noccUp` sublists of `range nbasis`,
each a strictly increasing index vector. -/
def occUpArray (nbasis noccUp : Nat) : List (List Nat) :=
  List.sublistsLen noccUp (List.range nbasis)

/-- `np.setdiff1d(brange, occs_up, assume_unique=True)`: the sorted
orbital indices below `nbasis` not occupied in `occs_up`. -/
def virsOf (nbasis : Nat) (occsUp : List Nat) : List Nat :=
  (List.range nbasis).filter (fun x => x ∉ occsUp)

/-- Determinants `add_seniorities` inserts for one requested seniority
`s`: the three enumeration sub-cases keyed on
`pairs = (wfn.nocc - s) // 2`.  A determinant is the pair
(spin-up occupations, spin-down occupations); the spin-down vector is the
first `nocc_dn` entries of the working buffer's second row. -/
def seniorityDetsFor (nbasis noccUp noccDn : Nat) (s : ℤ) :
    List (List Nat × List Nat) :=
  let occUps := occUpArray nbasis noccUp
  if s = 0 then
    occUps.map fun u => (u, u)
  else
    let pairs : ℤ := (((noccUp : ℤ) + (noccDn : ℤ)) - s).fdiv 2
    if pairs = (noccDn : ℤ) then
      occUps.flatMap fun u =>
        (List.sublistsLen noccDn u).map fun d => (u, d)
    else if pairs = 0 then
      occUps.flatMap fun u =>
        (List.sublistsLen noccDn (virsOf nbasis u)).map fun d => (u, d)
    else
      occUps.flatMap fun u =>
        (List.sublistsLen pairs.toNat u).flatMap fun di =>
          (List.sublistsLen (noccDn - pairs.toNat) (virsOf nbasis u)).map
            fun da => (u, di ++ da)

/-- `add_seniorities`: the up-front validation of every requested
seniority against `smin = nocc_up - nocc_dn`,
`smax = min(nocc_up, nvir_up)` and the parity of `smin`, then the
enumeration of each request in order.  The error value models the raised
`ValueError`; the returned list models the inserted determinants. -/
def add_seniorities (nbasis noccUp noccDn : Nat) (seniorities : List ℤ) :
    Except String (List (List Nat × List Nat)) :=
  let smin : ℤ := (noccUp : ℤ) - (noccDn : ℤ)
  let smax : ℤ := min (noccUp : ℤ) ((nbasis : ℤ) - (noccUp : ℤ))
  if seniorities.any fun s =>
      decide (s < smin) || decide (smax < s) || decide (s % 2 ≠ smin % 2) then
    Except.error "invalid seniority number specified"
  else
    Except.ok (seniorities.flatMap (seniorityDetsFor nbasis noccUp noccDn))

/-- Seniority of an inserted determinant: the number of spatial orbitals
occupied in exactly one of the two spin channels. -/
def seniorityOf (det : List Nat × List Nat) : Nat :=
  (det.1.toFinset \ det.2.toFinset).card + (det.2.toFinset \ det.1.toFinset).card

/-- `solve`: its 1×1 special case and the general branch.  The external
call `sp.eigsh` is a parameter `eigshFn` taking the arguments the source
passes (`k`, `v0`, `ncv`, `maxiter`, `tol`) and producing eigenvalues with
column-major eigenvectors. -/
def solve (dim : Nat) (ecore diag00 : ℚ)
    (eigshFn : Nat → List ℚ → Option Nat → Nat → ℚ → List ℚ × List (List ℚ))
    (n : Nat) (c0 : Option (List ℚ)) (ncv : Option Nat) (maxiter : Nat)
    (tol : ℚ) : List ℚ × List (List ℚ) :=
  if dim = 1 then
    ([diag00 + ecore], [[1]])
  else
    let c0v := match c0 with
      | none => (List.replicate dim (0 : ℚ)).set 0 1
      | some v => v ++ List.replicate (dim - v.length) (0 : ℚ)
    let r := eigshFn n c0v ncv maxiter tol
    (r.1.map (· + ecore), r.2.transpose)

/-- The initial guess `solve_cepa0` builds before the linear solve:
`c0 = zeros(dim) if c0 is None else c0 / c0[refind]`, then
`c0[refind] = diag(refind) if e0 is None else e0`. -/
def cepa0Guess (dim : Nat) (diagRef : ℚ) (e0 : Option ℚ)
    (c0 : Option (List ℚ)) (refind : Nat) : List ℚ :=
  let c0a := match c0 with
    | none => List.replicate dim (0 : ℚ)
    | some v => v.map fun x => x / v.getD refind 0
  c0a.set refind (match e0 with | none => diagRef | some e => e)

/-- `solve_cepa0`'s result assembly: the external linear solver's output
(`lsqr`/`lgmres`, a parameter `solverResult` here) is added to the initial
guess, the energy is read off at `refind` plus `ecore`, and only then is
the reference entry forced to `1`; the coefficients come back as a
single-row matrix. -/
def solve_cepa0 (dim : Nat) (ecore diagRef : ℚ) (solverResult : List ℚ)
    (e0 : Option ℚ) (c0 : Option (List ℚ)) (refind : Nat) :
    List ℚ × List (List ℚ) :=
  let c := List.zipWith (· + ·) solverResult (cepa0Guess dim diagRef e0 c0 refind)
  let e := [c.getD refind 0 + ecore]
  let cfin := c.set refind 1
  (e, [cfin])

/-- The keyword arguments the source passes to `scipy.sparse.linalg.lsqr`
on the `lstsq=True` path of `solve_cepa0`:
`sp.lsqr(lhs, rhs, iter_lime=maxiter, btol=tol, atol=tol)`. -/
def lsqrCallKeywords : List String :=
  ["iter_lime", "btol", "atol"]

section Theorems

/-- First projection of a branching pair, used to split loop results. -/
theorem fst_ite {α β : Type} (c : Prop) [Decidable c] (a b : α × β) :
    (if c then a else b).1 = if c then a.1 else b.1 :=
  apply_ite Prod.fst c a b

/-- Every determinant the one-spin loop accepts has cost strictly below the
fixed threshold the loop was started with. -/
theorem odoLoop_accepted_lt (nbasis nocc : Nat) (nodes : List ℚ) (t qneg : ℚ) :
    ∀ (fuel : Nat) (newOccs oldOccs : List Nat) (j : ℤ) (d : List Nat),
      (d, true) ∈ (odoLoop nbasis nocc nodes t qneg fuel newOccs oldOccs j).1 →
      qCost nodes t d < qneg := by
  intro fuel
  induction fuel with
  | zero =>
    intro newOccs oldOccs j d h
    simp [odoLoop] at h
  | succ fuel ih =>
    intro newOccs oldOccs j d h
    simp only [odoLoop, fst_ite] at h
    split at h
    next hacc =>
      rw [Bool.and_eq_true, decide_eq_true_eq, decide_eq_true_eq] at hacc
      split at h
      · rw [List.mem_singleton, Prod.mk.injEq] at h
        rw [h.1]
        exact hacc.2
      · rcases List.mem_cons.mp h with h' | h'
        · rw [Prod.mk.injEq] at h'
          rw [h'.1]
          exact hacc.2
        · exact ih _ _ _ _ h'
    next hacc =>
      split at h
      · rw [List.mem_singleton, Prod.mk.injEq] at h
        exact absurd h.2.symm hacc
      · rcases List.mem_cons.mp h with h' | h'
        · rw [Prod.mk.injEq] at h'
          exact absurd h'.2.symm hacc
        · exact ih _ _ _ _ h'

/-- Every determinant the two-spin loop accepts has both channel costs
strictly below the fixed thresholds the loop was started with. -/
theorem odoLoop2_accepted_lt (nbasis noccUp nocc : Nat) (nodes : List ℚ)
    (t qUpNeg qDnNeg : ℚ) :
    ∀ (fuel : Nat) (newOccs oldOccs : List Nat) (j : ℤ) (d : List Nat),
      (d, true) ∈ (odoLoop2 nbasis noccUp nocc nodes t qUpNeg qDnNeg fuel
        newOccs oldOccs j).1 →
      qCost nodes t (d.take noccUp) < qUpNeg ∧
        qCost nodes t (d.drop noccUp) < qDnNeg := by
  intro fuel
  induction fuel with
  | zero =>
    intro newOccs oldOccs j d h
    simp [odoLoop2] at h
  | succ fuel ih =>
    intro newOccs oldOccs j d h
    simp only [odoLoop2, fst_ite] at h
    split at h
    next hacc =>
      rw [Bool.and_eq_true, Bool.and_eq_true, decide_eq_true_eq,
        decide_eq_true_eq, decide_eq_true_eq] at hacc
      split at h
      · rw [List.mem_singleton, Prod.mk.injEq] at h
        rw [h.1]
        exact hacc.2
      · rcases List.mem_cons.mp h with h' | h'
        · rw [Prod.mk.injEq] at h'
          rw [h'.1]
          exact hacc.2
        · exact ih _ _ _ _ h'
    next hacc =>
      split at h
      · rw [List.mem_singleton, Prod.mk.injEq] at h
        exact absurd h.2.symm hacc
      · rcases List.mem_cons.mp h with h' | h'
        · rw [Prod.mk.injEq] at h'
          exact absurd h'.2.symm hacc
        · exact ih _ _ _ _ h'

/-- C1: the odometer selectors insert a determinant only if its cost
`sum(nodes[occs]) + t * max(nodes[occs])` is strictly below the per-channel
threshold `sum(nodes[aufbau occs without last]) * p + (t + 1) * nodes[-1] * p`
computed once from the aufbau occupation; the two-spin variant inserts only
when the strict inequality holds for both spin channels. -/
theorem odometer_inserts_only_below_threshold
    (nbasis nocc noccUp noccDn : Nat) (nodes : List ℚ) (t p : ℚ) (fuel : Nat) :
    (∀ d ∈ (odometer_one_spin nbasis nocc nodes t p fuel).1,
        qCost nodes t d < qNegThreshold nocc nodes t p) ∧
    (∀ d ∈ (odometer_two_spin nbasis noccUp noccDn nodes t p fuel).1,
        qCost nodes t (d.take noccUp) < qNegThreshold noccUp nodes t p ∧
          qCost nodes t (d.drop noccUp) < qNegThreshold noccDn nodes t p) := by
  constructor
  · intro d hd
    obtain ⟨e, he, hfe⟩ := List.mem_filterMap.mp hd
    have he2 : e.2 = true := by
      by_contra hne
      simp [hne] at hfe
    have he1 : e.1 = d := by
      rw [he2] at hfe
      simpa using hfe
    have : (d, true) ∈ (odometer_one_spin_states nbasis nocc nodes t p fuel).1 := by
      have : e = (d, true) := Prod.ext he1 he2
      rwa [this] at he
    exact odoLoop_accepted_lt nbasis nocc nodes t _ fuel _ _ _ d this
  · intro d hd
    obtain ⟨e, he, hfe⟩ := List.mem_filterMap.mp hd
    have he2 : e.2 = true := by
      by_contra hne
      simp [hne] at hfe
    have he1 : e.1 = d := by
      rw [he2] at hfe
      simpa using hfe
    have : (d, true) ∈ (odometer_two_spin_states nbasis noccUp noccDn nodes t p fuel).1 := by
      have : e = (d, true) := Prod.ext he1 he2
      rwa [this] at he
    exact odoLoop2_accepted_lt nbasis noccUp _ nodes t _ _ fuel _ _ _ d this

unseal Rat.add Rat.mul Rat.inv Rat.sub in
/-- Concrete instance of the threshold bound: the first accepted one-spin
determinant of a five-orbital run and the sole accepted two-spin
determinant of a two-orbital run. -/
theorem odometer_inserts_only_below_threshold_inst :
    qCost [0, 0, 0, 4, 9] (-1/2 : ℚ) [0, 1] <
      qNegThreshold 2 [0, 0, 0, 4, 9] (-1/2) 1 ∧
    (qCost [0, 1] (0 : ℚ) ([0, 0].take 1) < qNegThreshold 1 [0, 1] 0 1 ∧
      qCost [0, 1] (0 : ℚ) ([0, 0].drop 1) < qNegThreshold 1 [0, 1] 0 1) :=
  ⟨(odometer_inserts_only_below_threshold 5 2 0 0 [0, 0, 0, 4, 9] (-1/2) 1 64).1
      [0, 1] (by decide),
    (odometer_inserts_only_below_threshold 2 0 1 1 [0, 1] 0 1 32).2
      [0, 0] (by decide)⟩

/-- C2's record of the misspelled keyword: the `lstsq=True` branch passes
`iter_lime` (not scipy's `iter_lim`) to the least-squares solver, so the
iteration budget never reaches it and the call itself fails. -/
theorem solve_cepa0_lsqr_keyword_misspelled :
    "iter_lime" ∈ lsqrCallKeywords ∧ "iter_lim" ∉ lsqrCallKeywords := by
  decide

/-- C3: if any requested seniority violates the bounds
`smin ≤ s ≤ smax` or the parity of `smin`, `add_seniorities` fails with the
invalid-argument error before inserting anything, leaving the wave function
unmodified (the validation covers all requests up front). -/
theorem add_seniorities_invalid_rejects_everything
    (nbasis noccUp noccDn : Nat) (sens : List ℤ)
    (h : ∃ s ∈ sens,
      s < (noccUp : ℤ) - (noccDn : ℤ) ∨
        min (noccUp : ℤ) ((nbasis : ℤ) - (noccUp : ℤ)) < s ∨
        s % 2 ≠ ((noccUp : ℤ) - (noccDn : ℤ)) % 2) :
    add_seniorities nbasis noccUp noccDn sens =
      Except.error "invalid seniority number specified" := by
  obtain ⟨s, hs, hinv⟩ := h
  unfold add_seniorities
  rw [if_pos]
  rw [List.any_eq_true]
  refine ⟨s, hs, ?_⟩
  simp only [Bool.or_eq_true, decide_eq_true_iff]
  tauto

unseal Rat.add Rat.mul Rat.inv Rat.sub in
/-- Concrete instance: requesting seniority 1 for a four-orbital (2, 2)
wave function (bounds 0..2, even parity) is rejected up front. -/
theorem add_seniorities_invalid_rejects_everything_inst :
    (∃ s ∈ ([1] : List ℤ),
      s < (2 : ℤ) - (2 : ℤ) ∨
        min (2 : ℤ) ((4 : ℤ) - (2 : ℤ)) < s ∨
        s % 2 ≠ ((2 : ℤ) - (2 : ℤ)) % 2) ∧
    add_seniorities 4 2 2 [1] =
      Except.error "invalid seniority number specified" :=
  ⟨⟨1, by decide, by decide⟩,
    add_seniorities_invalid_rejects_everything 4 2 2 [1]
      ⟨1, by decide, by decide⟩⟩

/-- Length of the initial CEPA0 guess vector. -/
theorem cepa0Guess_length (dim : Nat) (diagRef : ℚ) (e0 : Option ℚ)
    (c0 : Option (List ℚ)) (refind : Nat)
    (hc0 : ∀ v ∈ c0, v.length = dim) :
    (cepa0Guess dim diagRef e0 c0 refind).length = dim := by
  unfold cepa0Guess
  cases c0 with
  | none => simp
  | some v => simp [hc0 v rfl]

/-- C5: `solve_cepa0` returns a single-row coefficient matrix whose entry
at `refind` is exactly 1, and an energy equal to the combined vector
(solver output plus initial guess) read at `refind` before that entry is
forced to 1, plus the core offset `ecore`. -/
theorem solve_cepa0_reference_entry_and_energy
    (dim : Nat) (ecore diagRef : ℚ) (solverResult : List ℚ)
    (e0 : Option ℚ) (c0 : Option (List ℚ)) (refind : Nat)
    (href : refind < dim) (hres : solverResult.length = dim)
    (hc0 : ∀ v ∈ c0, v.length = dim) :
    (solve_cepa0 dim ecore diagRef solverResult e0 c0 refind).2 =
      [(List.zipWith (· + ·) solverResult
        (cepa0Guess dim diagRef e0 c0 refind)).set refind 1] ∧
    ((solve_cepa0 dim ecore diagRef solverResult e0 c0 refind).2.getD 0
      []).getD refind 0 = 1 ∧
    (solve_cepa0 dim ecore diagRef solverResult e0 c0 refind).1 =
      [(List.zipWith (· + ·) solverResult
        (cepa0Guess dim diagRef e0 c0 refind)).getD refind 0 + ecore] := by
  refine ⟨rfl, ?_, rfl⟩
  have hlen : (List.zipWith (· + ·) solverResult
      (cepa0Guess dim diagRef e0 c0 refind)).length = dim := by
    rw [List.length_zipWith, hres, cepa0Guess_length dim diagRef e0 c0 refind hc0,
      Nat.min_self]
  have href' : refind <
      ((List.zipWith (· + ·) solverResult
        (cepa0Guess dim diagRef e0 c0 refind)).set refind 1).length := by
    rw [List.length_set, hlen]
    exact href
  show ((List.zipWith (· + ·) solverResult
      (cepa0Guess dim diagRef e0 c0 refind)).set refind 1).getD refind 0 = 1
  rw [List.getD_eq_getElem _ _ href']
  exact List.getElem_set_self href'

unseal Rat.add Rat.mul Rat.inv Rat.sub in
/-- Concrete instance of the CEPA0 finalization: dimension 2, solver
output `[1, 2]`, default guesses, reference index 0. -/
theorem solve_cepa0_reference_entry_and_energy_inst :
    (0 < 2 ∧ ([(1 : ℚ), 2] : List ℚ).length = 2) ∧
    ((solve_cepa0 2 1 3 [1, 2] none none 0).2 =
      [(List.zipWith (· + ·) [(1 : ℚ), 2] (cepa0Guess 2 3 none none 0)).set 0 1] ∧
    ((solve_cepa0 2 1 3 [1, 2] none none 0).2.getD 0 []).getD 0 0 = 1 ∧
    (solve_cepa0 2 1 3 [1, 2] none none 0).1 =
      [(List.zipWith (· + ·) [(1 : ℚ), 2] (cepa0Guess 2 3 none none 0)).getD 0 0 + 1]) :=
  ⟨⟨by decide, by decide⟩,
    solve_cepa0_reference_entry_and_energy 2 1 3 [1, 2] none none 0
      (by decide) (by decide) (by intro v hv; cases hv)⟩

/-- C6: on a dimension-1 operator, `solve` returns the single diagonal
element plus the core offset and the 1×1 coefficient matrix `[[1]]`, for
every eigensolver and every choice of `n`, `c0`, `ncv`, `maxiter`, `tol` —
the iterative solver is never consulted. -/
theorem solve_dim_one_bypasses_eigsh (ecore diag00 : ℚ)
    (eigshFn : Nat → List ℚ → Option Nat → Nat → ℚ → List ℚ × List (List ℚ))
    (n : Nat) (c0 : Option (List ℚ)) (ncv : Option Nat) (maxiter : Nat)
    (tol : ℚ) :
    solve 1 ecore diag00 eigshFn n c0 ncv maxiter tol =
      ([diag00 + ecore], [[1]]) := by
  simp [solve]

/-- C10: with an explicitly supplied cost sequence, `add_gkci` ignores
`node_dim` entirely — any two values give identical insertions, and no
error is raised. -/
theorem add_gkci_explicit_mode_ignores_node_dim
    (kind : WfnKind) (nbasis noccUp noccDn : Nat) (t p : ℚ) (l : List ℚ)
    (d₁ d₂ : Option Nat) (fuel : Nat) :
    add_gkci kind nbasis noccUp noccDn t p (NodeMode.explicitList l) d₁ fuel =
      add_gkci kind nbasis noccUp noccDn t p (NodeMode.explicitList l) d₂ fuel ∧
    ∃ r, add_gkci kind nbasis noccUp noccDn t p (NodeMode.explicitList l) d₁ fuel =
      Except.ok r := by
  constructor
  · rfl
  · cases kind <;> exact ⟨_, rfl⟩

/-- Appending one more shell. -/
theorem cntspShells_succ (m : Nat) :
    cntspShells (m + 1) = cntspShells m ++ List.replicate ((m + 1) ^ 2) (m : ℚ) := by
  unfold cntspShells
  rw [List.range_succ, List.flatMap_append]
  simp

/-- Length grows by the size of the appended shell. -/
theorem length_cntspShells_succ (m : Nat) :
    (cntspShells (m + 1)).length = (cntspShells m).length + (m + 1) ^ 2 := by
  rw [cntspShells_succ]
  simp

/-- `m` shells hold at least `m` entries. -/
theorem le_length_cntspShells (m : Nat) : m ≤ (cntspShells m).length := by
  induction m with
  | zero => simp [cntspShells]
  | succ m ih =>
    rw [length_cntspShells_succ]
    have h1 : 0 < (m + 1) ^ 2 := pow_pos (Nat.succ_pos m) 2
    omega

/-- Earlier shell lists are prefixes of later ones. -/
theorem cntspShells_prefix_mono {m m' : Nat} (h : m ≤ m') :
    cntspShells m <+: cntspShells m' := by
  induction m' with
  | zero =>
    have hm : m = 0 := Nat.le_zero.mp h
    rw [hm]
  | succ m' ih =>
    rcases Nat.eq_or_lt_of_le h with he | hl
    · rw [he]
    · have hp := ih (Nat.lt_succ_iff.mp hl)
      rw [cntspShells_succ]
      exact hp.trans (List.prefix_append _ _)

/-- The `"cntsp"` while loop, started on a whole number of shells, stops on
a whole number of shells covering at least `n` entries. -/
theorem cntspLoop_shells (n : Nat) :
    ∀ (fuel k : Nat), n ≤ (cntspShells k).length + fuel →
      ∃ m, k ≤ m ∧ n ≤ (cntspShells m).length ∧
        cntspLoop n k (cntspShells k) = cntspShells m := by
  intro fuel
  induction fuel with
  | zero =>
    intro k hk
    refine ⟨k, le_refl k, by simpa using hk, ?_⟩
    rw [cntspLoop]
    rw [if_neg (by omega : ¬ (cntspShells k).length < n)]
  | succ fuel ih =>
    intro k hk
    by_cases h : (cntspShells k).length < n
    · have h1 : 0 < (k + 1) ^ 2 := pow_pos (Nat.succ_pos k) 2
      have hk' : n ≤ (cntspShells (k + 1)).length + fuel := by
        rw [length_cntspShells_succ]
        omega
      obtain ⟨m, hm1, hm2, hm3⟩ := ih (k + 1) hk'
      refine ⟨m, by omega, hm2, ?_⟩
      rw [cntspLoop, if_pos h, ← cntspShells_succ]
      exact hm3
    · refine ⟨k, le_refl k, by omega, ?_⟩
      rw [cntspLoop, if_neg h]

/-- Truncating a list or any of its prefix extensions below the prefix's
length gives the same result. -/
theorem take_eq_of_prefix_le {l l' : List ℚ} (h : l <+: l') {n : Nat}
    (hn : n ≤ l.length) : l'.take n = l.take n := by
  obtain ⟨u, hu⟩ := h
  rw [← hu, List.take_append_eq_append_take, Nat.sub_eq_zero_of_le hn]
  simp

/-- Every entry of the first `m` shells is a shell cost below `m`. -/
theorem cntspShells_le (m : Nat) : ∀ x ∈ cntspShells m, x + 1 ≤ (m : ℚ) := by
  induction m with
  | zero => simp [cntspShells]
  | succ m ih =>
    intro x hx
    rw [cntspShells_succ] at hx
    rcases List.mem_append.mp hx with hx' | hx'
    · have := ih x hx'
      push_cast
      linarith
    · rw [List.eq_of_mem_replicate hx']
      push_cast
      linarith

/-- The shell layout is a non-decreasing cost table. -/
theorem cntspShells_pairwise (m : Nat) :
    (cntspShells m).Pairwise (· ≤ ·) := by
  induction m with
  | zero => simp [cntspShells]
  | succ m ih =>
    rw [cntspShells_succ, List.pairwise_append]
    refine ⟨ih, ?_, ?_⟩
    · rw [List.pairwise_replicate]
      right
      exact le_refl _
    · intro a ha b hb
      rw [List.eq_of_mem_replicate hb]
      have := cntspShells_le m a ha
      linarith

/-- C7: with mode `"cntsp"`, `add_gkci` builds the node table in which
shell `k ≥ 1` contributes exactly `k ^ 2` consecutive entries of cost
`k - 1`, shells appear in increasing order of `k`, and the table is
truncated to exactly `nbasis` entries; consequently it is non-decreasing. -/
theorem add_gkci_cntsp_node_table (nbasis : Nat) :
    cntspNodes nbasis = cntspSpecNodes nbasis ∧
    (cntspNodes nbasis).length = nbasis ∧
    (cntspNodes nbasis).Pairwise (· ≤ ·) := by
  have h0 : cntspShells 0 = [] := by simp [cntspShells]
  obtain ⟨m, hm0, hmlen, hmeq⟩ :=
    cntspLoop_shells nbasis nbasis 0 (by rw [h0]; simp)
  have heq : cntspLoop nbasis 0 [] = cntspShells m := by
    rw [← h0]
    exact hmeq
  have hnodes : cntspNodes nbasis = (cntspShells m).take nbasis := by
    rw [cntspNodes, heq]
  refine ⟨?_, ?_, ?_⟩
  · rw [hnodes, cntspSpecNodes]
    rcases Nat.le_total m nbasis with hmn | hmn
    · exact (take_eq_of_prefix_le (cntspShells_prefix_mono hmn) hmlen).symm
    · exact take_eq_of_prefix_le (cntspShells_prefix_mono hmn) (le_length_cntspShells nbasis)
  · rw [hnodes, List.length_take]
    omega
  · rw [hnodes]
    exact List.Pairwise.sublist (List.take_sublist _ _) (cntspShells_pairwise m)

/-- `exciteFrom` keeps the vector's length. -/
theorem exciteFrom_length (occs : List Nat) (j stop : Nat) :
    (exciteFrom occs j stop).length = occs.length := by
  simp [exciteFrom]

/-- Pointwise description of the advancement step. -/
theorem exciteFrom_getD (occs : List Nat) (j stop k : Nat)
    (hk : k < occs.length) :
    (exciteFrom occs j stop).getD k 0 =
      if k < j then occs.getD k 0
      else if k < stop then occs.getD j 0 + 1 + (k - j)
      else occs.getD k 0 := by
  unfold exciteFrom
  rw [List.getD_eq_getElem _ _ (by simpa using hk)]
  rw [List.getElem_map, List.getElem_range]

/-- Advancing position `j` of a strictly increasing segment `[a, b)` and
resetting the tail of the segment keeps it strictly increasing. -/
theorem exciteFrom_strictOn_in (occs : List Nat) (a b j : Nat)
    (hb : b ≤ occs.length) (hj2 : j < b) (hs : StrictOn occs a b) :
    StrictOn (exciteFrom occs j b) a b := by
  intro k hk i hik hai
  rw [exciteFrom_getD occs j b k (by omega), exciteFrom_getD occs j b i (by omega)]
  by_cases hkj : k < j
  · rw [if_pos hkj, if_pos (by omega : i < j)]
    exact hs k hk i hik hai
  · rw [if_neg hkj, if_pos hk]
    by_cases hij : i < j
    · rw [if_pos hij]
      have := hs j hj2 i hij hai
      omega
    · rw [if_neg hij, if_pos (by omega : i < b)]
      omega

/-- A strictly increasing segment entirely before the advanced position is
untouched. -/
theorem exciteFrom_strictOn_below (occs : List Nat) (a b j stop : Nat)
    (hb : b ≤ occs.length) (hbj : b ≤ j) (hs : StrictOn occs a b) :
    StrictOn (exciteFrom occs j stop) a b := by
  intro k hk i hik hai
  rw [exciteFrom_getD occs j stop k (by omega), exciteFrom_getD occs j stop i (by omega)]
  rw [if_pos (by omega : k < j), if_pos (by omega : i < j)]
  exact hs k hk i hik hai

/-- A strictly increasing segment entirely past the reset boundary is
untouched. -/
theorem exciteFrom_strictOn_above (occs : List Nat) (a b j stop : Nat)
    (hb : b ≤ occs.length) (hsa : stop ≤ a) (hs : StrictOn occs a b) :
    StrictOn (exciteFrom occs j stop) a b := by
  intro k hk i hik hai
  have hgk : (exciteFrom occs j stop).getD k 0 = occs.getD k 0 := by
    rw [exciteFrom_getD occs j stop k (by omega)]
    by_cases h1 : k < j
    · rw [if_pos h1]
    · rw [if_neg h1, if_neg (by omega : ¬ k < stop)]
  have hgi : (exciteFrom occs j stop).getD i 0 = occs.getD i 0 := by
    rw [exciteFrom_getD occs j stop i (by omega)]
    by_cases h1 : i < j
    · rw [if_pos h1]
    · rw [if_neg h1, if_neg (by omega : ¬ i < stop)]
  rw [hgk, hgi]
  exact hs k hk i hik hai

/-- The two-spin advancement (`j` below `noccUp` resets within the spin-up
channel, otherwise within the spin-down channel) preserves both channels'
strict increase. -/
theorem exciteFrom_two_spin_strictOn (occs : List Nat) (noccUp nocc j : Nat)
    (hcc : noccUp ≤ nocc) (hb : nocc ≤ occs.length) (hj : j < nocc)
    (h1 : StrictOn occs 0 noccUp) (h2 : StrictOn occs noccUp nocc) :
    StrictOn (exciteFrom occs j (if j < noccUp then noccUp else nocc)) 0 noccUp ∧
    StrictOn (exciteFrom occs j (if j < noccUp then noccUp else nocc)) noccUp nocc := by
  by_cases hj2 : j < noccUp
  · rw [if_pos hj2]
    exact ⟨exciteFrom_strictOn_in occs 0 noccUp j (by omega) hj2 h1,
      exciteFrom_strictOn_above occs noccUp nocc j noccUp hb (le_refl _) h2⟩
  · rw [if_neg hj2]
    exact ⟨exciteFrom_strictOn_below occs 0 noccUp j nocc (by omega) (by omega) h1,
      exciteFrom_strictOn_in occs noccUp nocc j hb hj h2⟩

/-- The aufbau occupation is strictly increasing. -/
theorem strictOn_range (n : Nat) : StrictOn (List.range n) 0 n := by
  intro k hk i hik _
  rw [List.getD_eq_getElem _ _ (by simp only [List.length_range]; omega),
    List.getD_eq_getElem _ _ (by simpa using hk)]
  simpa using hik

/-- Spin-up channel of the two-spin aufbau occupation. -/
theorem strictOn_aufbau_up (noccUp noccDn : Nat) :
    StrictOn (List.range noccUp ++ List.range noccDn) 0 noccUp := by
  intro k hk i hik hai
  rw [List.getD_append _ _ _ _ (by simp only [List.length_range]; omega),
    List.getD_append _ _ _ _ (by simpa using hk)]
  exact strictOn_range noccUp k hk i hik hai

/-- Spin-down channel of the two-spin aufbau occupation. -/
theorem strictOn_aufbau_dn (noccUp noccDn : Nat) :
    StrictOn (List.range noccUp ++ List.range noccDn) noccUp (noccUp + noccDn) := by
  intro k hk i hik hai
  rw [List.getD_append_right _ _ _ _ (by simp only [List.length_range]; omega),
    List.getD_append_right _ _ _ _ (by simp only [List.length_range]; omega)]
  simp only [List.length_range]
  exact strictOn_range noccDn (k - noccUp) (by omega) (i - noccUp) (by omega) (by omega)

/-- For a strictly increasing vector, checking its last entry against
`nbasis` is the same as checking every entry. -/
theorem strictOn_last_iff_any (l : List Nat) (n nbasis : Nat)
    (hl : l.length = n) (hs : StrictOn l 0 n) (hn : 0 < n) :
    nbasis ≤ l.getD (n - 1) 0 ↔ ∃ x ∈ l, nbasis ≤ x := by
  constructor
  · intro h
    refine ⟨l.getD (n - 1) 0, ?_, h⟩
    rw [List.getD_eq_getElem _ _ (by omega)]
    exact List.getElem_mem _
  · rintro ⟨x, hx, hxn⟩
    obtain ⟨i, hi, rfl⟩ := List.mem_iff_getElem.mp hx
    rcases Nat.lt_or_ge i (n - 1) with hlt | hge
    · have hmono := hs (n - 1) (by omega) i hlt (by omega)
      rw [List.getD_eq_getElem _ _ (by omega)] at hmono
      omega
    · have hieq : i = n - 1 := by omega
      rw [← hieq, List.getD_eq_getElem _ _ hi]
      exact hxn
/-- For channel-wise strictly increasing vectors, checking the two channel
ends against `nbasis` is the same as checking every entry. -/
theorem strictOn_channels_last_iff_any (l : List Nat) (noccUp noccDn nbasis : Nat)
    (hl : l.length = noccUp + noccDn) (hup : StrictOn l 0 noccUp)
    (hdn : StrictOn l noccUp (noccUp + noccDn)) (h1 : 0 < noccUp) :
    nbasis ≤ max (l.getD (noccUp - 1) 0) (l.getD (noccUp + noccDn - 1) 0) ↔
      ∃ x ∈ l, nbasis ≤ x := by
  constructor
  · intro h
    rcases le_max_iff.mp h with h' | h'
    · refine ⟨l.getD (noccUp - 1) 0, ?_, h'⟩
      rw [List.getD_eq_getElem _ _ (by omega)]
      exact List.getElem_mem _
    · refine ⟨l.getD (noccUp + noccDn - 1) 0, ?_, h'⟩
      rw [List.getD_eq_getElem _ _ (by omega)]
      exact List.getElem_mem _
  · rintro ⟨x, hx, hxn⟩
    obtain ⟨i, hi, rfl⟩ := List.mem_iff_getElem.mp hx
    rcases Nat.lt_or_ge i noccUp with hiu | hiu
    · refine le_max_iff.mpr (Or.inl ?_)
      rcases Nat.lt_or_ge i (noccUp - 1) with hlt | hge
      · have hmono := hup (noccUp - 1) (by omega) i hlt (by omega)
        rw [List.getD_eq_getElem _ _ (by omega)] at hmono
        omega
      · have hieq : i = noccUp - 1 := by omega
        rw [← hieq, List.getD_eq_getElem _ _ hi]
        exact hxn
    · refine le_max_iff.mpr (Or.inr ?_)
      rcases Nat.lt_or_ge i (noccUp + noccDn - 1) with hlt | hge
      · have hmono := hdn (noccUp + noccDn - 1) (by omega) i hlt (by omega)
        rw [List.getD_eq_getElem _ _ (by omega)] at hmono
        omega
      · have hieq : i = noccUp + noccDn - 1 := by omega
        rw [← hieq, List.getD_eq_getElem _ _ hi]
        exact hxn

/-- Loop invariant of the one-spin odometer: every tested state is a
strictly increasing length-`nocc` vector. -/
theorem odoLoop_states_strictOn (nbasis nocc : Nat) (nodes : List ℚ)
    (t qneg : ℚ) :
    ∀ (fuel : Nat) (newOccs oldOccs : List Nat) (j : ℤ),
      newOccs.length = nocc → StrictOn newOccs 0 nocc →
      oldOccs.length = nocc → StrictOn oldOccs 0 nocc →
      j ≤ (nocc : ℤ) - 1 →
      ∀ e ∈ (odoLoop nbasis nocc nodes t qneg fuel newOccs oldOccs j).1,
        e.1.length = nocc ∧ StrictOn e.1 0 nocc := by
  intro fuel
  induction fuel with
  | zero =>
    intro newOccs oldOccs j _ _ _ _ _ e he
    simp [odoLoop] at he
  | succ fuel ih =>
    intro newOccs oldOccs j hnl hns hol hos hj e he
    simp only [odoLoop, fst_ite] at he
    split at he
    next hacc =>
      split at he
      next hstop =>
        rw [List.mem_singleton] at he
        rw [he]
        exact ⟨hnl, hns⟩
      next hstop =>
        rcases List.mem_cons.mp he with he' | he'
        · rw [he']
          exact ⟨hnl, hns⟩
        · have hstop' : ¬ ((nocc : ℤ) - 1 < 0) := hstop
          have hnocc : 1 ≤ nocc := by omega
          have hjn : ((nocc : ℤ) - 1).toNat < nocc := by omega
          refine ih (exciteFrom newOccs ((nocc : ℤ) - 1).toNat nocc) newOccs
            ((nocc : ℤ) - 1) ?_ ?_ hnl hns (by omega) e he'
          · rw [exciteFrom_length, hnl]
          · exact exciteFrom_strictOn_in newOccs 0 nocc _ (by omega) hjn hns
    next hacc =>
      split at he
      next hstop =>
        rw [List.mem_singleton] at he
        rw [he]
        exact ⟨hnl, hns⟩
      next hstop =>
        rcases List.mem_cons.mp he with he' | he'
        · rw [he']
          exact ⟨hnl, hns⟩
        · have hstop' : ¬ (j - 1 < 0) := hstop
          have hjn : (j - 1).toNat < nocc := by omega
          refine ih (exciteFrom oldOccs (j - 1).toNat nocc) oldOccs (j - 1)
            ?_ ?_ hol hos (by omega) e he'
          · rw [exciteFrom_length, hol]
          · exact exciteFrom_strictOn_in oldOccs 0 nocc _ (by omega) hjn hos

/-- Loop invariant of the two-spin odometer: every tested state is a
length-`nocc` vector whose channels are each strictly increasing. -/
theorem odoLoop2_states_strictOn (nbasis noccUp nocc : Nat) (nodes : List ℚ)
    (t qUpNeg qDnNeg : ℚ) (hcc : noccUp ≤ nocc) :
    ∀ (fuel : Nat) (newOccs oldOccs : List Nat) (j : ℤ),
      newOccs.length = nocc → StrictOn newOccs 0 noccUp →
      StrictOn newOccs noccUp nocc →
      oldOccs.length = nocc → StrictOn oldOccs 0 noccUp →
      StrictOn oldOccs noccUp nocc →
      j ≤ (nocc : ℤ) - 1 →
      ∀ e ∈ (odoLoop2 nbasis noccUp nocc nodes t qUpNeg qDnNeg fuel
        newOccs oldOccs j).1,
        e.1.length = nocc ∧ StrictOn e.1 0 noccUp ∧ StrictOn e.1 noccUp nocc := by
  intro fuel
  induction fuel with
  | zero =>
    intro newOccs oldOccs j _ _ _ _ _ _ _ e he
    simp [odoLoop2] at he
  | succ fuel ih =>
    intro newOccs oldOccs j hnl hnu hnd hol hou hod hj e he
    simp only [odoLoop2, fst_ite] at he
    split at he
    next hacc =>
      split at he
      next hstop =>
        rw [List.mem_singleton] at he
        rw [he]
        exact ⟨hnl, hnu, hnd⟩
      next hstop =>
        rcases List.mem_cons.mp he with he' | he'
        · rw [he']
          exact ⟨hnl, hnu, hnd⟩
        · have hstop' : ¬ ((nocc : ℤ) - 1 < 0) := hstop
          have hjn : ((nocc : ℤ) - 1).toNat < nocc := by omega
          have hpres := exciteFrom_two_spin_strictOn newOccs noccUp nocc
            ((nocc : ℤ) - 1).toNat hcc (by omega) hjn hnu hnd
          refine ih (exciteFrom newOccs ((nocc : ℤ) - 1).toNat
              (if ((nocc : ℤ) - 1).toNat < noccUp then noccUp else nocc))
            newOccs ((nocc : ℤ) - 1) ?_ hpres.1 hpres.2 hnl hnu hnd
            (by omega) e he'
          rw [exciteFrom_length, hnl]
    next hacc =>
      split at he
      next hstop =>
        rw [List.mem_singleton] at he
        rw [he]
        exact ⟨hnl, hnu, hnd⟩
      next hstop =>
        rcases List.mem_cons.mp he with he' | he'
        · rw [he']
          exact ⟨hnl, hnu, hnd⟩
        · have hstop' : ¬ (j - 1 < 0) := hstop
          have hjn : (j - 1).toNat < nocc := by omega
          have hpres := exciteFrom_two_spin_strictOn oldOccs noccUp nocc
            (j - 1).toNat hcc (by omega) hjn hou hod
          refine ih (exciteFrom oldOccs (j - 1).toNat
              (if (j - 1).toNat < noccUp then noccUp else nocc))
            oldOccs (j - 1) ?_ hpres.1 hpres.2 hol hou hod (by omega) e he'
          rw [exciteFrom_length, hol]

/-- C9: throughout both odometer selectors, the occupation indices within
each spin channel of every tested state form a strictly increasing
sequence, so the last index of a channel is its maximum and the code's
bounds check on the last index of each channel alone is equivalent to
checking whether any occupied index reaches `nbasis`. -/
theorem odometer_states_sorted_bounds_check
    (nbasis nocc noccUp noccDn : Nat) (nodes : List ℚ) (t p : ℚ) (fuel : Nat) :
    (0 < nocc →
      ∀ e ∈ (odometer_one_spin_states nbasis nocc nodes t p fuel).1,
        StrictOn e.1 0 nocc ∧
          (nbasis ≤ e.1.getD (nocc - 1) 0 ↔ ∃ x ∈ e.1, nbasis ≤ x)) ∧
    (0 < noccUp →
      ∀ e ∈ (odometer_two_spin_states nbasis noccUp noccDn nodes t p fuel).1,
        StrictOn e.1 0 noccUp ∧ StrictOn e.1 noccUp (noccUp + noccDn) ∧
          (nbasis ≤ max (e.1.getD (noccUp - 1) 0)
              (e.1.getD (noccUp + noccDn - 1) 0) ↔ ∃ x ∈ e.1, nbasis ≤ x)) := by
  constructor
  · intro hn e he
    have hinv := odoLoop_states_strictOn nbasis nocc nodes t
      (qNegThreshold nocc nodes t p) fuel (List.range nocc) (List.range nocc)
      ((nocc : ℤ) - 1) (List.length_range nocc) (strictOn_range nocc)
      (List.length_range nocc) (strictOn_range nocc) (le_refl _) e he
    exact ⟨hinv.2, strictOn_last_iff_any e.1 nocc nbasis hinv.1 hinv.2 hn⟩
  · intro hn e he
    have hlen : (List.range noccUp ++ List.range noccDn).length = noccUp + noccDn := by
      simp
    have hinv := odoLoop2_states_strictOn nbasis noccUp (noccUp + noccDn) nodes t
      (qNegThreshold noccUp nodes t p) (qNegThreshold noccDn nodes t p)
      (Nat.le_add_right _ _) fuel
      (List.range noccUp ++ List.range noccDn)
      (List.range noccUp ++ List.range noccDn) ((noccUp + noccDn : ℕ) - 1)
      hlen (strictOn_aufbau_up noccUp noccDn) (strictOn_aufbau_dn noccUp noccDn)
      hlen (strictOn_aufbau_up noccUp noccDn) (strictOn_aufbau_dn noccUp noccDn)
      (by omega) e he
    exact ⟨hinv.2.1, hinv.2.2,
      strictOn_channels_last_iff_any e.1 noccUp noccDn nbasis hinv.1
        hinv.2.1 hinv.2.2 hn⟩

unseal Rat.add Rat.mul Rat.inv Rat.sub in
/-- Concrete instance of the sortedness invariant, at one tested state of a
one-spin run and one tested state of a two-spin run. -/
theorem odometer_states_sorted_bounds_check_inst :
    ((0 : Nat) < 2 ∧
      ([0, 1], true) ∈ (odometer_one_spin_states 5 2 [0, 0, 0, 4, 9]
        (-1/2 : ℚ) 1 64).1) ∧
    (StrictOn [0, 1] 0 2 ∧
      (5 ≤ ([0, 1] : List Nat).getD 1 0 ↔ ∃ x ∈ ([0, 1] : List Nat), 5 ≤ x)) ∧
    ((0 : Nat) < 1 ∧
      ([0, 0], true) ∈ (odometer_two_spin_states 2 1 1 [0, 1] (0 : ℚ) 1 32).1) ∧
    (StrictOn [0, 0] 0 1 ∧ StrictOn [0, 0] 1 2 ∧
      (2 ≤ max (([0, 0] : List Nat).getD 0 0) (([0, 0] : List Nat).getD 1 0) ↔
        ∃ x ∈ ([0, 0] : List Nat), 2 ≤ x)) :=
  ⟨⟨by decide, by decide⟩,
    (odometer_states_sorted_bounds_check 5 2 0 0 [0, 0, 0, 4, 9] (-1/2) 1 64).1
      (by decide) ([0, 1], true) (by decide),
    ⟨by decide, by decide⟩,
    (odometer_states_sorted_bounds_check 2 0 1 1 [0, 1] 0 1 32).2
      (by decide) ([0, 0], true) (by decide)⟩

/-- A fold of `max` stays below any common upper bound. -/
theorem foldl_max_le (a : ℚ) :
    ∀ (xs : List ℚ) (b : ℚ), b ≤ a → (∀ x ∈ xs, x ≤ a) → xs.foldl max b ≤ a := by
  intro xs
  induction xs with
  | nil =>
    intro b hb _
    simpa using hb
  | cons x xs ih =>
    intro b hb h
    rw [List.foldl_cons]
    exact ih (max b x) (max_le hb (h x (by simp))) fun y hy => h y (by simp [hy])

/-- `np.max` of a vector ending in an upper bound is that bound. -/
theorem listMax_append_last (A : List ℚ) (a : ℚ) (h : ∀ x ∈ A, x ≤ a) :
    listMax (A ++ [a]) = a := by
  cases A with
  | nil => rfl
  | cons x xs =>
    simp only [List.cons_append, listMax, List.foldl_append, List.foldl_cons,
      List.foldl_nil]
    exact max_eq_right
      (foldl_max_le a xs x (h x (by simp)) fun y hy => h y (by simp [hy]))

/-- A non-decreasing node table gives monotone costs over in-range orbital
indices. -/
theorem nodeAt_mono (nodes : List ℚ) (hns : nodes.Pairwise (· ≤ ·))
    (i k : Nat) (hik : i ≤ k) (hk : k < nodes.length) :
    nodeAt nodes i ≤ nodeAt nodes k := by
  rcases Nat.eq_or_lt_of_le hik with rfl | hlt
  · exact le_refl _
  · unfold nodeAt
    rw [List.getD_eq_getElem _ _ (by omega), List.getD_eq_getElem _ _ hk]
    exact List.pairwise_iff_getElem.mp hns i k (by omega) hk hlt

/-- Pointwise description of the advancement step, `getElem` form. -/
theorem exciteFrom_getElem (occs : List Nat) (j stop i : Nat)
    (h : i < (exciteFrom occs j stop).length) :
    (exciteFrom occs j stop)[i] =
      if i < j then occs.getD i 0
      else if i < stop then occs.getD j 0 + 1 + (i - j)
      else occs.getD i 0 := by
  unfold exciteFrom at h ⊢
  rw [List.getElem_map, List.getElem_range]

/-- Exciting the last electron rewrites only the final occupation index,
raising it by one. -/
theorem exciteFrom_last (occs : List Nat) (n : Nat) (hn : 0 < n)
    (hlen : occs.length = n) :
    exciteFrom occs (n - 1) n = occs.take (n - 1) ++ [occs.getD (n - 1) 0 + 1] := by
  apply List.ext_getElem
  · rw [exciteFrom_length]
    simp only [List.length_append, List.length_take, List.length_cons,
      List.length_nil, hlen]
    omega
  · intro i h1 h2
    rw [exciteFrom_getElem occs (n - 1) n i h1]
    rcases Nat.lt_or_ge i (n - 1) with hi | hi
    · rw [if_pos hi]
      rw [List.getElem_append_left (by simp only [List.length_take, hlen]; omega)]
      rw [List.getElem_take]
      rw [List.getD_eq_getElem _ _ (by omega)]
    · have hieq : i = n - 1 := by
        rw [exciteFrom_length, hlen] at h1
        omega
      subst hieq
      rw [if_neg (by omega), if_pos (by omega)]
      rw [List.getElem_append_right (by simp only [List.length_take, hlen]; omega)]
      rw [List.getElem_singleton]
      omega

/-- The tail-position value is the largest occupied index of a strictly
increasing occupation vector. -/
theorem strictOn_le_last (occs : List Nat) (n : Nat) (hlen : occs.length = n)
    (hs : StrictOn occs 0 n) (i : Nat) (hi : i < n) :
    occs.getD i 0 ≤ occs.getD (n - 1) 0 := by
  rcases Nat.lt_or_ge i (n - 1) with hlt | hge
  · exact le_of_lt (hs (n - 1) (by omega) i hlt (by omega))
  · have : i = n - 1 := by omega
    rw [this]

/-- C8 (amended): with a non-decreasing node table, `t ≥ -1`, and the
raised index still inside the table, the advancement performed right after
an acceptance — exciting the last electron — never decreases the cost.
The full insertion-order cost sequence is not non-decreasing in general:
it can drop after the loop backtracks to an earlier electron. -/
theorem odometer_excite_last_cost_monotone
    (nodes : List ℚ) (t : ℚ) (n : Nat) (occs : List Nat)
    (hn : 0 < n) (hlen : occs.length = n) (hsort : StrictOn occs 0 n)
    (hnodes : nodes.Pairwise (· ≤ ·)) (ht : -1 ≤ t)
    (hrange : occs.getD (n - 1) 0 + 1 < nodes.length) :
    qCost nodes t occs ≤ qCost nodes t (exciteFrom occs (n - 1) n) := by
  have hdecomp : occs = occs.take (n - 1) ++ [occs.getD (n - 1) 0] := by
    apply List.ext_getElem
    · simp only [List.length_append, List.length_take, List.length_cons,
        List.length_nil, hlen]
      omega
    · intro i h1 h2
      rcases Nat.lt_or_ge i (n - 1) with hi | hi
      · rw [List.getElem_append_left (by simp only [List.length_take, hlen]; omega)]
        rw [List.getElem_take]
      · have hieq : i = n - 1 := by
          rw [hlen] at h1
          omega
        subst hieq
        rw [List.getElem_append_right (by simp only [List.length_take, hlen]; omega)]
        rw [List.getElem_singleton]
        rw [List.getD_eq_getElem _ _ (by omega)]
  have hbig : ∀ x ∈ (occs.take (n - 1)).map (nodeAt nodes),
      x ≤ nodeAt nodes (occs.getD (n - 1) 0) := by
    intro x hx
    obtain ⟨y, hy, rfl⟩ := List.mem_map.mp hx
    obtain ⟨i, hi, rfl⟩ := List.mem_iff_getElem.mp hy
    rw [List.getElem_take]
    have hiv : i < n - 1 := by
      have := hi
      simp only [List.length_take, hlen] at this
      omega
    rw [← List.getD_eq_getElem occs 0 (by omega)]
    exact nodeAt_mono nodes hnodes _ _
      (strictOn_le_last occs n hlen hsort i (by omega)) (by omega)
  have hmono : nodeAt nodes (occs.getD (n - 1) 0) ≤
      nodeAt nodes (occs.getD (n - 1) 0 + 1) :=
    nodeAt_mono nodes hnodes _ _ (Nat.le_succ _) hrange
  have hbig' : ∀ x ∈ (occs.take (n - 1)).map (nodeAt nodes),
      x ≤ nodeAt nodes (occs.getD (n - 1) 0 + 1) :=
    fun x hx => le_trans (hbig x hx) hmono
  rw [exciteFrom_last occs n hn hlen]
  conv_lhs => rw [hdecomp]
  unfold qCost
  rw [List.map_append, List.map_append]
  simp only [List.map_cons, List.map_nil]
  rw [listMax_append_last _ _ hbig, listMax_append_last _ _ hbig']
  rw [List.sum_append, List.sum_append]
  simp only [List.sum_cons, List.sum_nil]
  have hfac : 0 ≤ (1 + t) * (nodeAt nodes (occs.getD (n - 1) 0 + 1) -
      nodeAt nodes (occs.getD (n - 1) 0)) := by
    apply mul_nonneg
    · linarith
    · linarith
  nlinarith [hfac]

unseal Rat.add Rat.mul Rat.inv Rat.sub in
/-- Concrete instance of the amended monotonicity: one orbital moving from
index 0 to index 1 on the table `[0, 1, 2]` with `t = 0`. -/
theorem odometer_excite_last_cost_monotone_inst :
    ((0 : Nat) < 1 ∧ ([0] : List Nat).length = 1 ∧ StrictOn [0] 0 1 ∧
      ([(0 : ℚ), 1, 2]).Pairwise (· ≤ ·) ∧ (-1 : ℚ) ≤ 0 ∧
      ([0] : List Nat).getD 0 0 + 1 < ([(0 : ℚ), 1, 2]).length) ∧
    qCost [(0 : ℚ), 1, 2] 0 [0] ≤ qCost [(0 : ℚ), 1, 2] 0 (exciteFrom [0] 0 1) :=
  ⟨⟨by decide, by decide, by decide, by decide, by decide, by decide⟩,
    odometer_excite_last_cost_monotone [(0 : ℚ), 1, 2] 0 1 [0]
      (by decide) (by decide) (by decide) (by decide) (by decide) (by decide)⟩

unseal Rat.add Rat.mul Rat.inv Rat.sub in
/-- C8 refuted as stated: a completed one-spin run (non-decreasing node
table `[0, 0, 0, 4, 9]`, default `t = -1/2`, `p = 1`) accepts determinants
whose insertion-order costs are `[0, 0, 2, 0, 2, 2]`, which drop from `2`
back to `0` after a backtrack. -/
theorem odometer_one_spin_costs_not_monotone :
    ((odometer_one_spin 5 2 [0, 0, 0, 4, 9] (-1/2 : ℚ) 1 64).1.map
      (qCost [0, 0, 0, 4, 9] (-1/2 : ℚ)) = [0, 0, 2, 0, 2, 2]) ∧
    ¬ List.Pairwise (· ≤ ·)
      ((odometer_one_spin 5 2 [0, 0, 0, 4, 9] (-1/2 : ℚ) 1 64).1.map
        (qCost [0, 0, 0, 4, 9] (-1/2 : ℚ))) ∧
    (odometer_one_spin 5 2 [0, 0, 0, 4, 9] (-1/2 : ℚ) 1 64).2 = true := by
  refine ⟨by decide, ?_, by decide⟩
  intro hp
  rw [show ((odometer_one_spin 5 2 [0, 0, 0, 4, 9] (-1/2 : ℚ) 1 64).1.map
      (qCost [0, 0, 0, 4, 9] (-1/2 : ℚ))) = [0, 0, 2, 0, 2, 2] from by decide] at hp
  have h23 : (2 : ℚ) ≤ 0 := by
    have := List.pairwise_iff_getElem.mp hp 2 3 (by decide) (by decide) (by decide)
    simpa using this
  have : ¬ ((2 : ℚ) ≤ 0) := by decide
  exact this h23

/-- Facts about a pattern drawn from the reference spin-up enumeration. -/
theorem occUpArray_facts (nbasis noccUp : Nat) (u : List Nat)
    (h : u ∈ occUpArray nbasis noccUp) :
    u.Nodup ∧ u.length = noccUp ∧ u.toFinset.card = noccUp := by
  rw [occUpArray, List.mem_sublistsLen] at h
  have hnd : u.Nodup := h.1.nodup (List.nodup_range _)
  exact ⟨hnd, h.2, by rw [List.toFinset_card_of_nodup hnd, h.2]⟩

/-- Facts about a combination drawn from a duplicate-free pool. -/
theorem sublistsLen_facts {k : Nat} {l u : List Nat} (hl : l.Nodup)
    (h : u ∈ List.sublistsLen k l) :
    u.Nodup ∧ u.length = k ∧ u.toFinset.card = k ∧
      u.toFinset ⊆ l.toFinset ∧ ∀ x ∈ u, x ∈ l := by
  rw [List.mem_sublistsLen] at h
  have hnd : u.Nodup := h.1.nodup hl
  refine ⟨hnd, h.2, by rw [List.toFinset_card_of_nodup hnd, h.2], ?_,
    fun x hx => h.1.subset hx⟩
  intro x hx
  rw [List.mem_toFinset] at hx ⊢
  exact h.1.subset hx

/-- The virtual-orbital pool has no duplicates. -/
theorem virsOf_nodup (nbasis : Nat) (u : List Nat) : (virsOf nbasis u).Nodup :=
  (List.nodup_range _).filter _

/-- The virtual-orbital pool avoids the occupied pattern. -/
theorem virsOf_not_mem (nbasis : Nat) (u : List Nat) :
    ∀ x ∈ virsOf nbasis u, x ∉ u := by
  intro x hx
  rw [virsOf, List.mem_filter] at hx
  simpa using hx.2

/-- C4: for a valid requested seniority `s`, every determinant inserted by
`add_seniorities` for that request has exactly `s` singly-occupied spatial
orbitals (orbitals occupied in exactly one spin channel). -/
theorem add_seniorities_inserted_seniority
    (nbasis noccUp noccDn : Nat) (s : ℤ)
    (h1 : (noccUp : ℤ) - (noccDn : ℤ) ≤ s)
    (h2 : s ≤ min (noccUp : ℤ) ((nbasis : ℤ) - (noccUp : ℤ)))
    (h3 : s % 2 = ((noccUp : ℤ) - (noccDn : ℤ)) % 2) :
    ∀ det ∈ seniorityDetsFor nbasis noccUp noccDn s,
      (seniorityOf det : ℤ) = s := by
  intro det hdet
  simp only [seniorityDetsFor] at hdet
  by_cases hs0 : s = 0
  · rw [if_pos hs0] at hdet
    rw [List.mem_map] at hdet
    obtain ⟨u, hu, rfl⟩ := hdet
    rw [hs0]
    simp [seniorityOf]
  · rw [if_neg hs0] at hdet
    have hdvd : (2 : ℤ) ∣ ((noccUp : ℤ) + (noccDn : ℤ) - s) := by omega
    have hfd : (((noccUp : ℤ) + (noccDn : ℤ)) - s).fdiv 2 =
        (((noccUp : ℤ) + (noccDn : ℤ)) - s) / 2 :=
      Int.fdiv_eq_ediv _ (by norm_num)
    rw [hfd] at hdet
    split at hdet
    next hbr =>
      have hP : (noccUp : ℤ) + (noccDn : ℤ) - s = 2 * (noccDn : ℤ) := by omega
      rw [List.mem_flatMap] at hdet
      obtain ⟨u, hu, hd⟩ := hdet
      rw [List.mem_map] at hd
      obtain ⟨d, hd, rfl⟩ := hd
      obtain ⟨hund, hulen, hucard⟩ := occUpArray_facts nbasis noccUp u hu
      obtain ⟨hdnd, hdlen, hdcard, hdsub, _⟩ := sublistsLen_facts hund hd
      have hinter : u.toFinset ∩ d.toFinset = d.toFinset :=
        Finset.inter_eq_right.mpr hdsub
      have id1 := Finset.card_inter_add_card_sdiff u.toFinset d.toFinset
      have id2 := Finset.card_inter_add_card_sdiff d.toFinset u.toFinset
      rw [Finset.inter_comm] at id2
      rw [hinter] at id1 id2
      show ((u.toFinset \ d.toFinset).card + (d.toFinset \ u.toFinset).card : ℤ) = s
      omega
    next hbr =>
      split at hdet
      next hbr2 =>
        have hP : (noccUp : ℤ) + (noccDn : ℤ) - s = 0 := by omega
        rw [List.mem_flatMap] at hdet
        obtain ⟨u, hu, hd⟩ := hdet
        rw [List.mem_map] at hd
        obtain ⟨d, hd, rfl⟩ := hd
        obtain ⟨hund, hulen, hucard⟩ := occUpArray_facts nbasis noccUp u hu
        obtain ⟨hdnd, hdlen, hdcard, _, hdmem⟩ :=
          sublistsLen_facts (virsOf_nodup nbasis u) hd
        have hinter : u.toFinset ∩ d.toFinset = ∅ := by
          rw [Finset.eq_empty_iff_forall_not_mem]
          intro x hx
          rw [Finset.mem_inter, List.mem_toFinset, List.mem_toFinset] at hx
          exact virsOf_not_mem nbasis u x (hdmem x hx.2) hx.1
        have id1 := Finset.card_inter_add_card_sdiff u.toFinset d.toFinset
        have id2 := Finset.card_inter_add_card_sdiff d.toFinset u.toFinset
        rw [Finset.inter_comm] at id2
        rw [hinter] at id1 id2
        rw [Finset.card_empty] at id1 id2
        show ((u.toFinset \ d.toFinset).card + (d.toFinset \ u.toFinset).card : ℤ) = s
        omega
      next hbr2 =>
        have hP : (noccUp : ℤ) + (noccDn : ℤ) - s =
            2 * ((((noccUp : ℤ) + (noccDn : ℤ)) - s) / 2) := by omega
        rw [List.mem_flatMap] at hdet
        obtain ⟨u, hu, hrest⟩ := hdet
        rw [List.mem_flatMap] at hrest
        obtain ⟨di, hdi, hrest2⟩ := hrest
        rw [List.mem_map] at hrest2
        obtain ⟨da, hda, rfl⟩ := hrest2
        obtain ⟨hund, hulen, hucard⟩ := occUpArray_facts nbasis noccUp u hu
        obtain ⟨hdind, hdilen, hdicard, hdisub, _⟩ := sublistsLen_facts hund hdi
        obtain ⟨hdand, hdalen, hdacard, _, hdamem⟩ :=
          sublistsLen_facts (virsOf_nodup nbasis u) hda
        have hdisj : Disjoint di.toFinset da.toFinset := by
          rw [Finset.disjoint_left]
          intro x hxdi hxda
          rw [List.mem_toFinset] at hxdi hxda
          exact virsOf_not_mem nbasis u x (hdamem x hxda)
            (List.mem_toFinset.mp (hdisub (List.mem_toFinset.mpr hxdi)))
        have hDeq : (di ++ da).toFinset = di.toFinset ∪ da.toFinset :=
          List.toFinset_append
        have hDcard : (di ++ da).toFinset.card =
            di.toFinset.card + da.toFinset.card := by
          rw [hDeq]
          exact Finset.card_union_of_disjoint hdisj
        have hinter : u.toFinset ∩ (di ++ da).toFinset = di.toFinset := by
          rw [hDeq]
          apply Finset.ext
          intro x
          rw [Finset.mem_inter, Finset.mem_union]
          constructor
          · rintro ⟨hxu, hxdi | hxda⟩
            · exact hxdi
            · exact absurd (List.mem_toFinset.mp hxu)
                (virsOf_not_mem nbasis u x (hdamem x (List.mem_toFinset.mp hxda)))
          · intro hxdi
            exact ⟨hdisub hxdi, Or.inl hxdi⟩
        have id1 := Finset.card_inter_add_card_sdiff u.toFinset (di ++ da).toFinset
        have id2 := Finset.card_inter_add_card_sdiff (di ++ da).toFinset u.toFinset
        rw [Finset.inter_comm] at id2
        rw [hinter] at id1 id2
        show ((u.toFinset \ (di ++ da).toFinset).card +
          ((di ++ da).toFinset \ u.toFinset).card : ℤ) = s
        omega

unseal Rat.add Rat.mul Rat.inv Rat.sub in
/-- Concrete instance of the seniority count: `nbasis = 4`,
`nocc_up = nocc_dn = 2`, seniority 2, at one enumerated determinant. -/
theorem add_seniorities_inserted_seniority_inst :
    ((2 : ℤ) - 2 ≤ 2 ∧ (2 : ℤ) ≤ min (2 : ℤ) ((4 : ℤ) - 2) ∧
      (2 : ℤ) % 2 = ((2 : ℤ) - 2) % 2 ∧
      ([0, 1], [0, 2]) ∈ seniorityDetsFor 4 2 2 2) ∧
    (seniorityOf (([0, 1], [0, 2]) : List Nat × List Nat) : ℤ) = 2 :=
  ⟨⟨by decide, by decide, by decide, by decide⟩,
    add_seniorities_inserted_seniority 4 2 2 2 (by decide) (by decide)
      (by decide) ([0, 1], [0, 2]) (by decide)⟩

end Theorems

end PyCI
